import Mathlib

/-!
Shallow embedding of the MIDI-import module of M2B (src/M2B.py):
byte-level stream parsing (VLQ decoding, running status, channel/meta/sysex
events), the tempo map, and the note assembler of readMIDIFile.

Bytes are modelled as natural numbers (each below 256 in any real file);
the memory-mapped cursor is modelled by functions consuming a byte list and
returning the unread remainder.  A Python exception that the source can
raise on the modelled paths (struct.error on truncation, KeyError, IndexError)
is modelled by Option / Except.  Python float arithmetic on seconds is
modelled by exact rational arithmetic.
-/

namespace M2B

/-- The event classes of M2B.py, one constructor per Python dataclass.
Text payloads are kept as latin-1 decoded strings, raw payloads as byte
lists. -/
inductive Event where
  | NoteOnEvent (deltaTime channel note velocity : Nat)
  | NoteOffEvent (deltaTime channel note velocity : Nat)
  | NotePressureEvent (deltaTime channel note pressure : Nat)
  | ControllerEvent (deltaTime channel controller value : Nat)
  | ProgramEvent (deltaTime channel program : Nat)
  | ChannelPressureEvent (deltaTime channel pressure : Nat)
  | PitchBendEvent (deltaTime channel lsb msb : Nat)
  | SequenceNumberEvent (deltaTime sequenceNumber : Nat)
  | TextEvent (deltaTime : Nat) (text : String)
  | CopyrightEvent (deltaTime : Nat) (copyright : String)
  | TrackNameEvent (deltaTime : Nat) (name : String)
  | InstrumentNameEvent (deltaTime : Nat) (name : String)
  | LyricEvent (deltaTime : Nat) (lyric : String)
  | MarkerEvent (deltaTime : Nat) (marker : String)
  | CuePointEvent (deltaTime : Nat) (cuePoint : String)
  | ProgramNameEvent (deltaTime : Nat) (name : String)
  | DeviceNameEvent (deltaTime : Nat) (name : String)
  | MidiChannelPrefixEvent (deltaTime channelPrefix : Nat)
  | MidiPortEvent (deltaTime port : Nat)
  | EndOfTrackEvent (deltaTime : Nat)
  | TempoEvent (deltaTime tempo : Nat)
  | SmpteOffsetEvent (deltaTime hours minutes seconds fps fractionalFrames : Nat)
  | TimeSignatureEvent (deltaTime numerator denominator clocksPerClick thirtySecondPer24Clocks : Nat)
  | KeySignatureEvent (deltaTime flatsSharps majorMinor : Nat)
  | SequencerEvent (deltaTime : Nat) (data : List Nat)
  | SysExEvent (deltaTime : Nat) (data : List Nat)
  | EscapeSequenceEvent (deltaTime : Nat) (data : List Nat)
  deriving DecidableEq, Repr

/-- The `deltaTime` field common to every event dataclass. -/
def Event.deltaTime : Event → Nat
  | .NoteOnEvent d _ _ _ => d
  | .NoteOffEvent d _ _ _ => d
  | .NotePressureEvent d _ _ _ => d
  | .ControllerEvent d _ _ _ => d
  | .ProgramEvent d _ _ => d
  | .ChannelPressureEvent d _ _ => d
  | .PitchBendEvent d _ _ _ => d
  | .SequenceNumberEvent d _ => d
  | .TextEvent d _ => d
  | .CopyrightEvent d _ => d
  | .TrackNameEvent d _ => d
  | .InstrumentNameEvent d _ => d
  | .LyricEvent d _ => d
  | .MarkerEvent d _ => d
  | .CuePointEvent d _ => d
  | .ProgramNameEvent d _ => d
  | .DeviceNameEvent d _ => d
  | .MidiChannelPrefixEvent d _ => d
  | .MidiPortEvent d _ => d
  | .EndOfTrackEvent d => d
  | .TempoEvent d _ => d
  | .SmpteOffsetEvent d _ _ _ _ _ => d
  | .TimeSignatureEvent d _ _ _ _ => d
  | .KeySignatureEvent d _ _ => d
  | .SequencerEvent d _ => d
  | .SysExEvent d _ => d
  | .EscapeSequenceEvent d _ => d

/-- Read exactly `n` bytes (`memoryMap.read(n)` followed by a fixed-size
struct.unpack, which raises on a short read — modelled as `none`). -/
def readBytesExact : Nat → List Nat → Option (List Nat × List Nat)
  | 0, mm => some ([], mm)
  | _ + 1, [] => none
  | n + 1, b :: rest =>
    match readBytesExact n rest with
    | some (bs, rest') => some (b :: bs, rest')
    | none => none

/-- latin-1 decoding of a byte list (a bijection bytes-to-codepoints). -/
def decodeLatin1 (bs : List Nat) : String :=
  String.mk (bs.map Char.ofNat)

/-- `unpackVLQ`: `total = (total << 7) + (char & 0x7F)` per byte, stop when
the continuation bit `char & 0x80` is clear.  There is no bound on the
number of continuation bytes; running out of input is the only failure
(struct.error on the 1-byte read, modelled as `none`). -/
def unpackVLQ : List Nat → Nat → Option (Nat × List Nat)
  | [], _ => none
  | char :: rest, total =>
    let total' := total * 128 + (char &&& 0x7F)
    if char &&& 0x80 = 0 then some (total', rest)
    else unpackVLQ rest total'

/-- Dispatch of `channelEventByStatus[status & 0xF0]` followed by the
class's `fromMemoryMap`: a missing key (KeyError) and a short read both
yield `none`. -/
def channelEventFromMemoryMap (statusHigh deltaTime channel : Nat) (mm : List Nat) :
    Option (Event × List Nat) :=
  match statusHigh, mm with
  | 0x80, note :: velocity :: rest => some (.NoteOffEvent deltaTime channel note velocity, rest)
  | 0x90, note :: velocity :: rest => some (.NoteOnEvent deltaTime channel note velocity, rest)
  | 0xA0, note :: pressure :: rest => some (.NotePressureEvent deltaTime channel note pressure, rest)
  | 0xB0, controller :: value :: rest => some (.ControllerEvent deltaTime channel controller value, rest)
  | 0xC0, program :: rest => some (.ProgramEvent deltaTime channel program, rest)
  | 0xD0, pressure :: rest => some (.ChannelPressureEvent deltaTime channel pressure, rest)
  | 0xE0, lsb :: msb :: rest => some (.PitchBendEvent deltaTime channel lsb msb, rest)
  | _, _ => none

/-- `parseChannelEvent`: build the event for `status & 0xF0`, then apply the
zero-velocity normalization — a `NoteOnEvent` with velocity 0 is returned
as `NoteOffEvent(deltaTime, channel, note, 0)`. -/
def parseChannelEvent (deltaTime status : Nat) (mm : List Nat) : Option (Event × List Nat) :=
  let channel := status &&& 0xF
  match channelEventFromMemoryMap (status &&& 0xF0) deltaTime channel mm with
  | some (.NoteOnEvent dt ch note velocity, rest) =>
    if velocity = 0 then some (.NoteOffEvent dt ch note 0, rest)
    else some (.NoteOnEvent dt ch note velocity, rest)
  | r => r

/-- Dispatch of `metaEventByType[eventType]` followed by the class's
`fromMemoryMap` (an unrecognized type raises KeyError: `none`). -/
def metaEventFromMemoryMap (eventType deltaTime length : Nat) (mm : List Nat) :
    Option (Event × List Nat) :=
  match eventType with
  | 0x00 =>
    match mm with
    | hi :: lo :: rest => some (.SequenceNumberEvent deltaTime (hi * 256 + lo), rest)
    | _ => none
  | 0x01 => (readBytesExact length mm).map (fun (bs, rest) => (.TextEvent deltaTime (decodeLatin1 bs), rest))
  | 0x02 => (readBytesExact length mm).map (fun (bs, rest) => (.CopyrightEvent deltaTime (decodeLatin1 bs), rest))
  | 0x03 => (readBytesExact length mm).map (fun (bs, rest) => (.TrackNameEvent deltaTime (decodeLatin1 bs), rest))
  | 0x04 => (readBytesExact length mm).map (fun (bs, rest) => (.InstrumentNameEvent deltaTime (decodeLatin1 bs), rest))
  | 0x05 => (readBytesExact length mm).map (fun (bs, rest) => (.LyricEvent deltaTime (decodeLatin1 bs), rest))
  | 0x06 => (readBytesExact length mm).map (fun (bs, rest) => (.MarkerEvent deltaTime (decodeLatin1 bs), rest))
  | 0x07 => (readBytesExact length mm).map (fun (bs, rest) => (.CuePointEvent deltaTime (decodeLatin1 bs), rest))
  | 0x08 => (readBytesExact length mm).map (fun (bs, rest) => (.ProgramNameEvent deltaTime (decodeLatin1 bs), rest))
  | 0x09 => (readBytesExact length mm).map (fun (bs, rest) => (.DeviceNameEvent deltaTime (decodeLatin1 bs), rest))
  | 0x20 =>
    match mm with
    | b :: rest => some (.MidiChannelPrefixEvent deltaTime b, rest)
    | _ => none
  | 0x21 =>
    match mm with
    | b :: rest => some (.MidiPortEvent deltaTime b, rest)
    | _ => none
  | 0x2F => some (.EndOfTrackEvent deltaTime, mm)
  | 0x51 =>
    match mm with
    | b2 :: b1 :: b0 :: rest => some (.TempoEvent deltaTime (b2 * 65536 + b1 * 256 + b0), rest)
    | _ => none
  | 0x54 =>
    match mm with
    | h :: m :: s :: fps :: ff :: rest => some (.SmpteOffsetEvent deltaTime h m s fps ff, rest)
    | _ => none
  | 0x58 =>
    match mm with
    | n :: d :: c :: t :: rest => some (.TimeSignatureEvent deltaTime n d c t, rest)
    | _ => none
  | 0x59 =>
    match mm with
    | f :: mi :: rest => some (.KeySignatureEvent deltaTime f mi, rest)
    | _ => none
  | 0x7F => (readBytesExact length mm).map (fun (bs, rest) => (.SequencerEvent deltaTime bs, rest))
  | _ => none

/-- `parseMetaEvent`: read the type byte, a VLQ length, then the payload. -/
def parseMetaEvent (deltaTime : Nat) (mm : List Nat) : Option (Event × List Nat) :=
  match mm with
  | [] => none
  | eventType :: mm1 =>
    match unpackVLQ mm1 0 with
    | none => none
    | some (length, mm2) => metaEventFromMemoryMap eventType deltaTime length mm2

/-- `parseSysExEvent`: a VLQ length then that many raw bytes; status 0xF0
gives a SysExEvent, 0xF7 an EscapeSequenceEvent (anything else falls off
the end of the Python function, returning None). -/
def parseSysExEvent (deltaTime status : Nat) (mm : List Nat) : Option (Event × List Nat) :=
  match unpackVLQ mm 0 with
  | none => none
  | some (length, mm1) =>
    if status = 0xF0 then
      (readBytesExact length mm1).map (fun (bs, rest) => (.SysExEvent deltaTime bs, rest))
    else if status = 0xF7 then
      (readBytesExact length mm1).map (fun (bs, rest) => (.EscapeSequenceEvent deltaTime bs, rest))
    else none

/-- The running-status state of the stream parser. -/
structure MidiParseState where
  runningStatus : Nat := 0
  deriving DecidableEq, Repr

/-- `parseEvent`: read the deltaTime VLQ, read one candidate status byte; if
its high bit is set store it as the new running status, otherwise rewind the
cursor by one byte (the candidate byte stays unread) and reuse the previous
running status; then dispatch on the running status. -/
def parseEvent (mm : List Nat) (parseState : MidiParseState) :
    Option (Event × MidiParseState × List Nat) :=
  match unpackVLQ mm 0 with
  | none => none
  | some (deltaTime, mm1) =>
    match mm1 with
    | [] => none
    | status :: mm2 =>
      let parseState' :=
        if status &&& 0x80 ≠ 0 then { runningStatus := status } else parseState
      let mmAfter := if status &&& 0x80 ≠ 0 then mm2 else mm1
      let runningStatus := parseState'.runningStatus
      if runningStatus = 0xFF then
        (parseMetaEvent deltaTime mmAfter).map (fun (e, rest) => (e, parseState', rest))
      else if runningStatus = 0xF0 ∨ runningStatus = 0xF7 then
        (parseSysExEvent deltaTime runningStatus mmAfter).map (fun (e, rest) => (e, parseState', rest))
      else if 0x80 ≤ runningStatus then
        (parseChannelEvent deltaTime runningStatus mmAfter).map (fun (e, rest) => (e, parseState', rest))
      else none

/-- `parseEvents`: parse until an EndOfTrackEvent is produced (inclusive).
The fuel argument only serves termination; each successful `parseEvent`
consumes at least the one byte of its deltaTime VLQ. -/
def parseEventsAux : Nat → List Nat → MidiParseState → List Event →
    Option (List Event × List Nat)
  | 0, _, _, _ => none
  | fuel + 1, mm, parseState, acc =>
    match parseEvent mm parseState with
    | none => none
    | some (event, parseState', mm') =>
      match event with
      | .EndOfTrackEvent _ => some (acc ++ [event], mm')
      | _ => parseEventsAux fuel mm' parseState' (acc ++ [event])

/-- `parseEvents` on a byte list, with enough fuel for the whole input. -/
def parseEvents (mm : List Nat) : Option (List Event × List Nat) :=
  parseEventsAux (mm.length + 1) mm {} []

/-! Tempo map -/

/-- Python exceptions reachable in the modelled tempo/assembly code. -/
inductive PyError where
  | indexError
  | keyError (channel note : Nat)
  deriving DecidableEq, Repr

instance {ε α : Type} [DecidableEq ε] [DecidableEq α] : DecidableEq (Except ε α) :=
  fun x y =>
  match x, y with
  | .error e, .error e' =>
    if h : e = e' then isTrue (congrArg Except.error h)
    else isFalse (fun hc => h (Except.error.inj hc))
  | .error _, .ok _ => isFalse (fun hc => Except.noConfusion hc)
  | .ok _, .error _ => isFalse (fun hc => Except.noConfusion hc)
  | .ok a, .ok b =>
    if h : a = b then isTrue (congrArg Except.ok h)
    else isFalse (fun hc => h (Except.ok.inj hc))

/-- A raw track: its decoded event list. -/
structure MidiTrack where
  events : List Event
  deriving DecidableEq, Repr

/-- The decoded file: format, ppqn, the tempo slot (initialised to -1 by
`MidiFile.fromFile`, set by `readMIDIFile`), and the raw tracks. -/
structure MidiFile where
  midiFormat : Nat
  ppqn : Nat
  tempo : Int
  tracks : List MidiTrack
  deriving DecidableEq, Repr

structure TempoEventRecord where
  timeInTicks : Nat
  timeInSeconds : ℚ
  tempo : Nat
  deriving DecidableEq, Repr

/-- The default record `TempoEventRecord(0, 0, 500_000)` used when no
accumulated record matches. -/
def defaultTempoRecord : TempoEventRecord := ⟨0, 0, 500000⟩

/-- `next(filter(lambda e: e.timeInTicks <= t, reversed(tempoEvents)), default)`:
the first record of the reversed list whose tick position is at most `t`. -/
def findTempoRecord (tempoEvents : List TempoEventRecord) (timeInTicks : Nat) :
    TempoEventRecord :=
  (tempoEvents.reverse.find? (fun e => e.timeInTicks ≤ timeInTicks)).getD defaultTempoRecord

/-- The core of `TempoMap.timeInTicksToSeconds` once the tempo record list
is selected:
`tempoEvent.timeInSeconds + (t - tempoEvent.timeInTicks) * (tempoEvent.tempo / ppqn) / 1_000_000`. -/
def tempoListToSeconds (ppqn : Nat) (tempoEvents : List TempoEventRecord)
    (timeInTicks : Nat) : ℚ :=
  let tempoEvent := findTempoRecord tempoEvents timeInTicks
  let microSecondsPerTick : ℚ := (tempoEvent.tempo : ℚ) / (ppqn : ℚ)
  let secondsPerTick := microSecondsPerTick / 1000000
  let elapsedSeconds := ((timeInTicks : ℚ) - (tempoEvent.timeInTicks : ℚ)) * secondsPerTick
  tempoEvent.timeInSeconds + elapsedSeconds

structure TempoMap where
  ppqn : Nat
  midiFormat : Nat
  tempoTracks : List (List TempoEventRecord)
  deriving DecidableEq, Repr

/-- `TempoMap.timeInTicksToSeconds`: redirect the track index to 0 for
format 1, then index `tempoTracks` (IndexError when out of range) and apply
the anchor formula. -/
def timeInTicksToSeconds (tm : TempoMap) (trackIndex timeInTicks : Nat) : Except PyError ℚ :=
  let trackIndex := if tm.midiFormat ≠ 1 then trackIndex else 0
  match tm.tempoTracks.get? trackIndex with
  | none => .error .indexError
  | some tempoEvents => .ok (tempoListToSeconds tm.ppqn tempoEvents timeInTicks)

/-- One iteration of the inner event loop of `computeTempoTracks`: advance
`timeInTicks` by the event's delta, recompute `timeInSeconds` via
`timeInTicksToSeconds`, and on a TempoEvent append a record to the list at
`trackIndex` (the Python code appends through the `tempoEvents` alias of
`self.tempoTracks[trackIndex]`). -/
def tempoTrackStep (ppqn midiFormat trackIndex : Nat)
    (acc : List (List TempoEventRecord) × Nat × ℚ) (event : Event) :
    Except PyError (List (List TempoEventRecord) × Nat × ℚ) := do
  let (tempoTracks, timeInTicks, _) := acc
  let timeInTicks := timeInTicks + event.deltaTime
  let timeInSeconds ←
    timeInTicksToSeconds ⟨ppqn, midiFormat, tempoTracks⟩ trackIndex timeInTicks
  match event with
  | .TempoEvent _ tempo =>
    let tempoTracks := tempoTracks.set trackIndex
      (tempoTracks.getD trackIndex [] ++ [⟨timeInTicks, timeInSeconds, tempo⟩])
    return (tempoTracks, timeInTicks, timeInSeconds)
  | _ => return (tempoTracks, timeInTicks, timeInSeconds)

/-- The per-track body of `computeTempoTracks`: the line
`tempoEvents = self.tempoTracks[trackIndex]` raises IndexError when the
index is out of range, then the event loop runs from tick 0. -/
def processTempoTrack (ppqn midiFormat trackIndex : Nat) (events : List Event)
    (tempoTracks : List (List TempoEventRecord)) :
    Except PyError (List (List TempoEventRecord)) :=
  match tempoTracks.get? trackIndex with
  | none => .error .indexError
  | some _ => do
    let (tempoTracks, _, _) ←
      events.foldlM (tempoTrackStep ppqn midiFormat trackIndex) (tempoTracks, 0, 0)
    return tempoTracks

/-- The `for trackIndex, track in enumerate(tracks)` loop of
`computeTempoTracks`. -/
def tempoTracksLoop (ppqn midiFormat : Nat) :
    Nat → List MidiTrack → List (List TempoEventRecord) →
    Except PyError (List (List TempoEventRecord))
  | _, [], tempoTracks => .ok tempoTracks
  | trackIndex, track :: rest, tempoTracks => do
    let tempoTracks ← processTempoTrack ppqn midiFormat trackIndex track.events tempoTracks
    tempoTracksLoop ppqn midiFormat (trackIndex + 1) rest tempoTracks

/-- `TempoMap.__init__` / `computeTempoTracks`.  Python initialises
`self.tempoTracks = [[] * len(tracks)]`, and `[] * n` is `[]`, so the
initial value is `[[]]` — a single empty list whatever the track count is.
For format 1 only `tracks[0:1]` is walked, otherwise every track. -/
def TempoMap.build (midiFile : MidiFile) : Except PyError TempoMap := do
  let tracks := if midiFile.midiFormat = 1 then midiFile.tracks.take 1 else midiFile.tracks
  let tempoTracks ← tempoTracksLoop midiFile.ppqn midiFile.midiFormat 0 tracks [[]]
  return ⟨midiFile.ppqn, midiFile.midiFormat, tempoTracks⟩

/-! Note assembler (`readMIDIFile`) -/

structure MIDINote where
  channel : Nat
  noteNumber : Nat
  timeOn : ℚ
  timeOff : ℚ
  velocity : ℚ
  deriving DecidableEq, Repr

structure MIDITrack where
  name : String
  index : Nat
  minNote : Nat
  maxNote : Nat
  notes : List MIDINote
  notesUsed : List Nat
  deriving DecidableEq, Repr

structure NoteOnRecord where
  ticks : Nat
  time : ℚ
  velocity : ℚ
  numberOfNotes : Nat
  deriving DecidableEq, Repr

/-- The open-note dictionary keyed by `(channel, note)`, modelled as an
association list in insertion order. -/
abbrev NoteTable := List ((Nat × Nat) × NoteOnRecord)

def tableLookup (table : NoteTable) (key : Nat × Nat) : Option NoteOnRecord :=
  match table with
  | [] => none
  | (k, v) :: rest => if k = key then some v else tableLookup rest key

/-- In-place value update of the entry at `key` (dict mutation). -/
def tableAdjust (table : NoteTable) (key : Nat × Nat)
    (f : NoteOnRecord → NoteOnRecord) : NoteTable :=
  table.map (fun e => if e.1 = key then (e.1, f e.2) else e)

/-- `del self.noteOnTable[key]`. -/
def tableErase (table : NoteTable) (key : Nat × Nat) : NoteTable :=
  table.filter (fun e => e.1 ≠ key)

structure TrackState where
  timeInTicks : Nat
  timeInSeconds : ℚ
  noteOnTable : NoteTable
  deriving DecidableEq

def TrackState.init : TrackState := ⟨0, 0, []⟩

/-- `TrackState.updateTime`. -/
def updateTime (st : TrackState) (trackIndex : Nat) (tm : TempoMap) (deltaTime : Nat) :
    Except PyError TrackState := do
  let timeInTicks := st.timeInTicks + deltaTime
  let timeInSeconds ← timeInTicksToSeconds tm trackIndex timeInTicks
  return ⟨timeInTicks, timeInSeconds, st.noteOnTable⟩

/-- `TrackState.recordNoteOn`: increment the stack count of an existing
record, or open a new record at the current tick/seconds position with
velocity `event.velocity / 127`. -/
def recordNoteOn (st : TrackState) (channel note velocity : Nat) : TrackState :=
  let key := (channel, note)
  match tableLookup st.noteOnTable key with
  | some _ =>
    let table := tableAdjust st.noteOnTable key
      (fun r => { r with numberOfNotes := r.numberOfNotes + 1 })
    { st with noteOnTable := table }
  | none =>
    let record : NoteOnRecord := ⟨st.timeInTicks, st.timeInSeconds, (velocity : ℚ) / 127, 1⟩
    { st with noteOnTable := st.noteOnTable ++ [(key, record)] }

/-- `TrackState.getCorrespondingNoteOnRecord`: `self.noteOnTable[key]`
raises KeyError when the key is absent; a stack count of 1 removes and
returns the record, otherwise the count is decremented and None returned. -/
def getCorrespondingNoteOnRecord (st : TrackState) (channel note : Nat) :
    Except PyError (Option NoteOnRecord × TrackState) :=
  let key := (channel, note)
  match tableLookup st.noteOnTable key with
  | none => .error (.keyError channel note)
  | some noteOnRecord =>
    if noteOnRecord.numberOfNotes = 1 then
      .ok (some noteOnRecord, { st with noteOnTable := tableErase st.noteOnTable key })
    else
      let table := tableAdjust st.noteOnTable key
        (fun r => { r with numberOfNotes := r.numberOfNotes - 1 })
      .ok (none, { st with noteOnTable := table })

/-- The per-track mutable locals of the `readMIDIFile` track loop. -/
structure TrackAccum where
  notes : List MIDINote
  notesUsed : List Nat
  trackName : String
  trackState : TrackState
  minNote : Nat
  minDurationInTicks : Nat
  maxNote : Nat
  deriving DecidableEq

def TrackAccum.init : TrackAccum :=
  ⟨[], [], "", TrackState.init, 1000, 1000000, 0⟩

/-- One iteration of the `for event in track.events` loop of
`readMIDIFile`. -/
def trackEventStep (tm : TempoMap) (trackIndex : Nat) (acc : TrackAccum) (event : Event) :
    Except PyError TrackAccum := do
  let ts ← updateTime acc.trackState trackIndex tm event.deltaTime
  match event with
  | .TrackNameEvent _ name =>
    return { acc with trackState := ts, trackName := name }
  | .NoteOnEvent _ channel note velocity =>
    let ts := recordNoteOn ts channel note velocity
    return { acc with
      trackState := ts
      minNote := min acc.minNote note
      maxNote := max acc.maxNote note
      notesUsed := if note ∈ acc.notesUsed then acc.notesUsed else acc.notesUsed ++ [note] }
  | .NoteOffEvent _ channel note _ =>
    match ← getCorrespondingNoteOnRecord ts channel note with
    | (none, ts) => return { acc with trackState := ts }
    | (some noteOnRecord, ts) =>
      let startTime := noteOnRecord.time
      let velocity := noteOnRecord.velocity
      let endTime := ts.timeInSeconds
      return { acc with
        trackState := ts
        notes := acc.notes ++ [⟨channel, note, startTime, endTime, velocity⟩]
        minDurationInTicks :=
          min acc.minDurationInTicks (ts.timeInTicks - noteOnRecord.ticks) }
  | _ => return { acc with trackState := ts }

/-- The whole event loop for one track of `readMIDIFile`. -/
def processTrackEvents (tm : TempoMap) (trackIndex : Nat) (events : List Event) :
    Except PyError TrackAccum :=
  events.foldlM (trackEventStep tm trackIndex) TrackAccum.init

/-- The `for trackIndex, track in enumerate(fileTracks)` loop: a track is
kept only when its `notesUsed` list is non-empty, and kept tracks are
renumbered densely by `trackIndexUsed`. -/
def workingTracksLoop (tm : TempoMap) :
    Nat → Nat → List MidiTrack → List MIDITrack → Except PyError (List MIDITrack)
  | _, _, [], workingTracks => .ok workingTracks
  | trackIndex, trackIndexUsed, track :: rest, workingTracks => do
    let acc ← processTrackEvents tm trackIndex track.events
    if acc.notesUsed ≠ [] then
      let newTrack : MIDITrack :=
        ⟨acc.trackName, trackIndexUsed, acc.minNote, acc.maxNote, acc.notes, acc.notesUsed⟩
      workingTracksLoop tm (trackIndex + 1) (trackIndexUsed + 1) rest
        (workingTracks ++ [newTrack])
    else
      workingTracksLoop tm (trackIndex + 1) trackIndexUsed rest workingTracks

/-- The body of the `for note in workingTracks[0].notes` filter for one
channel of the format-0 explosion, returning
`(notes, notesUsed, minNote, maxNote)`. -/
def explodeChannel (sourceNotes : List MIDINote) (channel : Nat) :
    List MIDINote × List Nat × Nat × Nat :=
  sourceNotes.foldl
    (fun (acc : List MIDINote × List Nat × Nat × Nat) note =>
      let (notes, notesUsed, minNote, maxNote) := acc
      if note.channel = channel then
        (notes ++ [note],
         (if note.noteNumber ∈ notesUsed then notesUsed else notesUsed ++ [note.noteNumber]),
         min minNote note.noteNumber, max maxNote note.noteNumber)
      else acc)
    ([], [], 1000, 0)

/-- The `for channel in range(16)` loop of the format-0 explosion, applied
to `workingTracks[0]`. -/
def explodeLoop (firstTrack : MIDITrack) :
    Nat → List Nat → List MIDITrack
  | _, [] => []
  | trackIndexUsed, channel :: restChannels =>
    let (notes, notesUsed, minNote, maxNote) := explodeChannel firstTrack.notes channel
    if notesUsed ≠ [] then
      let newTrack : MIDITrack :=
        ⟨firstTrack.name ++ "-ch" ++ toString channel, trackIndexUsed,
          minNote, maxNote, notes, notesUsed⟩
      newTrack :: explodeLoop firstTrack (trackIndexUsed + 1) restChannels
    else
      explodeLoop firstTrack trackIndexUsed restChannels

/-- `readMIDIFile`, from the decoded `MidiFile` on: build the tempo map,
set the overall `tempo` (`tempoMap.tempoTracks[0][0].tempo` when there is
exactly one tempo track — an IndexError when that single list is empty —
else 0), assemble the notes of every candidate track (all tracks, or
tracks 1.. for format 1), and for format 0 explode the first working track
by channel (`workingTracks[0]` raises IndexError when no track had
notes). -/
def readMIDIFile (midiFile : MidiFile) :
    Except PyError (MidiFile × TempoMap × List MIDITrack) := do
  let tempoMap ← TempoMap.build midiFile
  let tempo ←
    if tempoMap.tempoTracks.length = 1 then
      match tempoMap.tempoTracks.getD 0 [] with
      | [] => Except.error PyError.indexError
      | record :: _ => pure (record.tempo : Int)
    else pure 0
  let midiFile := { midiFile with tempo := tempo }
  let fileTracks := if midiFile.midiFormat ≠ 1 then midiFile.tracks else midiFile.tracks.drop 1
  let workingTracks ← workingTracksLoop tempoMap 0 0 fileTracks []
  if midiFile.midiFormat = 0 then
    match workingTracks with
    | [] => Except.error PyError.indexError
    | firstTrack :: _ =>
      return (midiFile, tempoMap, explodeLoop firstTrack 0 (List.range 16))
  else
    return (midiFile, tempoMap, workingTracks)

/-! Spec-side definitions, written from the specification's words, for the
refinement claim about `ticksToSeconds`. -/

/-- Modelled from the spec: "find the latest TempoEventRecord with
`tickPosition ≤ given tick` (default if none)". -/
def latestRecordSpec (tempoEvents : List TempoEventRecord) (timeInTicks : Nat) :
    TempoEventRecord :=
  ((tempoEvents.filter (fun r => r.timeInTicks ≤ timeInTicks)).getLast?).getD
    defaultTempoRecord

/-- Modelled from the spec: "`secondsPosition +
(tick - tickPosition) * (microsecondsPerQuarterNote / ppqn) / 1,000,000`"
at the latest record with tick position at most the queried tick. -/
def ticksToSecondsSpec (ppqn : Nat) (tempoEvents : List TempoEventRecord)
    (timeInTicks : Nat) : ℚ :=
  let anchor := latestRecordSpec tempoEvents timeInTicks
  anchor.timeInSeconds +
    ((timeInTicks : ℚ) - (anchor.timeInTicks : ℚ)) * ((anchor.tempo : ℚ) / (ppqn : ℚ)) / 1000000

/-! Invariants used to prove the timeOff ≥ timeOn property. -/

/-- The shape of a tempo record list as `computeTempoTracks` builds it:
each appended record's seconds position was computed, at its own tick
position, from the records accumulated before it. -/
inductive TempoWF (ppqn : Nat) : List TempoEventRecord → Prop where
  | nil : TempoWF ppqn []
  | snoc (l : List TempoEventRecord) (t tempo : Nat) (h : TempoWF ppqn l) :
      TempoWF ppqn (l ++ [⟨t, tempoListToSeconds ppqn l t, tempo⟩])

/-- Every open-note record's tick position is at most the current tick
position, and its seconds position is the tempo-map image of its tick
position. -/
def TableWF (ppqn : Nat) (tl : List TempoEventRecord) (curTicks : Nat)
    (table : NoteTable) : Prop :=
  ∀ entry ∈ table,
    entry.2.ticks ≤ curTicks ∧ entry.2.time = tempoListToSeconds ppqn tl entry.2.ticks

/-- Every assembled note spans forward in time. -/
def NotesWF (notes : List MIDINote) : Prop :=
  ∀ note ∈ notes, note.timeOn ≤ note.timeOff

/-- The per-track loop invariant of the note assembler. -/
def AccumWF (ppqn : Nat) (tl : List TempoEventRecord) (acc : TrackAccum) : Prop :=
  TableWF ppqn tl acc.trackState.timeInTicks acc.trackState.noteOnTable ∧
  NotesWF acc.notes

/-- A small format-1 example file: a tempo track and one melodic track. -/
def exampleMidiFile : MidiFile :=
  ⟨1, 500, -1,
    [⟨[.TempoEvent 0 500000, .EndOfTrackEvent 0]⟩,
     ⟨[.NoteOnEvent 0 0 60 100, .NoteOffEvent 10 0 60 0, .EndOfTrackEvent 0]⟩]⟩

/-- The one note `readMIDIFile` assembles from `exampleMidiFile`. -/
def exampleNote : MIDINote := ⟨0, 60, 0, 1 / 100, 100 / 127⟩

/-- The one working track `readMIDIFile` returns for `exampleMidiFile`. -/
def exampleTrack : MIDITrack := ⟨"", 0, 60, 60, [exampleNote], [60]⟩

/-! Theorems -/

/-- Successful monadic bind in `Except` factors through a successful first
component. -/
theorem except_bind_ok {ε α β : Type} {x : Except ε α} {f : α → Except ε β} {b : β}
    (h : x >>= f = .ok b) : ∃ a, x = .ok a ∧ f a = .ok b := by
  cases x with
  | error e => exact absurd h (by simp [Bind.bind, Except.bind])
  | ok a => exact ⟨a, rfl, h⟩

/-- Unfolding of `unpackVLQ` on a continuation byte (high bit set). -/
theorem unpackVLQ_cons_continuation (char : Nat) (rest : List Nat) (total : Nat)
    (h : char &&& 0x80 ≠ 0) :
    unpackVLQ (char :: rest) total = unpackVLQ rest (total * 128 + (char &&& 0x7F)) := by
  simp only [unpackVLQ]
  rw [if_neg h]

/-- Unfolding of `unpackVLQ` on a terminating byte (high bit clear). -/
theorem unpackVLQ_cons_final (char : Nat) (rest : List Nat) (total : Nat)
    (h : char &&& 0x80 = 0) :
    unpackVLQ (char :: rest) total = some (total * 128 + (char &&& 0x7F), rest) := by
  simp only [unpackVLQ]
  rw [if_pos h]

/-- C2 (counterexample): the claim requires the VLQ decoder to fail with
MalformedVLQError once more than 4 continuation bytes are consumed, but on
the 6-byte input `81 81 81 81 81 01` — five continuation bytes — the
decoder of the source succeeds and returns a value. -/
theorem unpackVLQ_five_continuation_bytes_succeeds :
    unpackVLQ [0x81, 0x81, 0x81, 0x81, 0x81, 0x01] 0 = some (34630287489, []) := by
  decide

/-- C2 (amended): the VLQ decoder has no continuation-byte bound at all —
for every count `n`, a run of `n` continuation bytes `0x81` followed by the
terminating byte `0x01` decodes successfully, leaving the remaining input
untouched; the decoder can only fail by exhausting the input. -/
theorem unpackVLQ_unbounded_continuation :
    ∀ (n : Nat) (rest : List Nat) (total : Nat),
      ∃ v, unpackVLQ (List.replicate n 0x81 ++ 0x01 :: rest) total = some (v, rest) := by
  intro n
  induction n with
  | zero =>
    intro rest total
    refine ⟨total * 128 + 1, ?_⟩
    simpa using unpackVLQ_cons_final 0x01 rest total (by decide)
  | succ n ih =>
    intro rest total
    obtain ⟨v, hv⟩ := ih rest (total * 128 + 1)
    refine ⟨v, ?_⟩
    rw [List.replicate_succ, List.cons_append,
      unpackVLQ_cons_continuation 0x81 _ total (by decide)]
    simpa using hv

/-- C3: `computeTempoTracks` initialises `tempoTracks` to `[[] * n]`,
which is the one-element list `[[]]`, so a format-2 file with two tracks
raises IndexError while walking the second track, instead of producing one
tempo record list per file track. -/
theorem tempoMapBuild_format2_two_tracks_indexError :
    TempoMap.build ⟨2, 480, -1, [⟨[.EndOfTrackEvent 0]⟩, ⟨[.EndOfTrackEvent 0]⟩]⟩
      = .error .indexError := by
  decide

/-- C4: on a format-1 file whose tempo track holds two different tempo
events (500000 then 250000 µs per quarter), `readMIDIFile` sets the overall
tempo to 500000 — the first record's value — although the tempo varies,
because it only tests `len(tempoMap.tempoTracks) == 1`; the claim requires
0 there. -/
theorem readMIDIFile_varying_tempo_nonzero :
    (readMIDIFile ⟨1, 500, -1,
        [⟨[.TempoEvent 0 500000, .TempoEvent 500 250000, .EndOfTrackEvent 0]⟩,
         ⟨[.EndOfTrackEvent 0]⟩]⟩).map
      (fun r => (r.1.tempo, r.2.1.tempoTracks.map (fun l => l.map TempoEventRecord.tempo)))
      = .ok (500000, [[500000, 250000]]) := by
  decide

/-- C7: a channel event with NoteOn status whose velocity byte is 0 is
returned by the stream parser as a NoteOff with the same channel and note
and velocity 0; and no NoteOn event the parser returns carries velocity 0,
so downstream note pairing never sees a zero-velocity NoteOn. -/
theorem parseChannelEvent_zero_velocity (deltaTime status note : Nat) (rest : List Nat)
    (h : status &&& 0xF0 = 0x90) :
    parseChannelEvent deltaTime status (note :: 0 :: rest)
      = some (.NoteOffEvent deltaTime (status &&& 0xF) note 0, rest) ∧
    ∀ (dt0 status' dt ch n v : Nat) (mm rest' : List Nat),
      parseChannelEvent dt0 status' mm = some (.NoteOnEvent dt ch n v, rest') → v ≠ 0 := by
  constructor
  · simp only [parseChannelEvent, h]
    rfl
  · intro dt0 status' dt ch n v mm rest' heq
    simp only [parseChannelEvent] at heq
    cases ho : channelEventFromMemoryMap (status' &&& 0xF0) dt0 (status' &&& 0xF) mm with
    | none => rw [ho] at heq; exact Option.noConfusion heq
    | some pr =>
      rw [ho] at heq
      obtain ⟨e, r⟩ := pr
      cases e <;> simp only [] at heq <;> try exact absurd heq (by simp)
      case NoteOnEvent dt1 ch1 n1 v1 =>
        by_cases hv : v1 = 0
        · rw [if_pos hv] at heq
          simp at heq
        · rw [if_neg hv] at heq
          simp only [Option.some.injEq, Prod.mk.injEq, Event.NoteOnEvent.injEq] at heq
          obtain ⟨⟨_, _, _, hveq⟩, _⟩ := heq
          exact fun hc => hv (hveq.trans hc)

/-- C7 witness: status byte 0x92 (NoteOn, channel 2) with data bytes
(40, 0) parses to a NoteOff on channel 2, note 40, velocity 0. -/
theorem parseChannelEvent_zero_velocity_witness :
    (146 &&& 240 : Nat) = 144 ∧
    parseChannelEvent 5 146 [40, 0, 9] = some (.NoteOffEvent 5 2 40 0, [9]) := by
  refine ⟨by decide, ?_⟩
  have h := (parseChannelEvent_zero_velocity 5 146 40 [9] (by decide)).1
  have h2 : (146 &&& 15 : Nat) = 2 := by decide
  rw [h2] at h
  exact h

/-- C1 (counterexample): on a track whose first event is a NoteOff with no
open NoteOn record, the note assembler raises KeyError — it does not
silently skip the orphan — whereas the same track without the orphan
NoteOff assembles its note normally. -/
theorem orphan_noteOff_raises_keyError :
    processTrackEvents ⟨500, 0, [[]]⟩ 0
        [.NoteOffEvent 0 0 60 0, .NoteOnEvent 0 0 60 100, .NoteOffEvent 10 0 60 0]
      = .error (.keyError 0 60) ∧
    (processTrackEvents ⟨500, 0, [[]]⟩ 0
        [.NoteOnEvent 0 0 60 100, .NoteOffEvent 10 0 60 0]).map TrackAccum.notes
      = .ok [⟨0, 60, 0, 1 / 100, 100 / 127⟩] := by
  exact ⟨by decide, by with_unfolding_all rfl⟩

/-- C1 (amended): a NoteOff for a (channel, noteNumber) key with no open
NoteOn record is not ignored: the dictionary lookup in
`getCorrespondingNoteOnRecord` raises KeyError, so the track's note
assembly aborts with that error and no notes are returned. -/
theorem noteOff_without_open_record_keyError (tm : TempoMap) (trackIndex : Nat)
    (acc : TrackAccum) (deltaTime channel note velocity : Nat) (rest : List Event)
    (tempoEvents : List TempoEventRecord)
    (hidx : tm.tempoTracks.get? (if tm.midiFormat ≠ 1 then trackIndex else 0)
      = some tempoEvents)
    (hlook : tableLookup acc.trackState.noteOnTable (channel, note) = none) :
    List.foldlM (trackEventStep tm trackIndex) acc
        (.NoteOffEvent deltaTime channel note velocity :: rest)
      = .error (.keyError channel note) := by
  rw [List.foldlM_cons]
  have hstep : trackEventStep tm trackIndex acc (.NoteOffEvent deltaTime channel note velocity)
      = .error (.keyError channel note) := by
    simp only [trackEventStep, updateTime, timeInTicksToSeconds, hidx,
      getCorrespondingNoteOnRecord, hlook, Event.deltaTime, bind, Except.bind, pure,
      Except.pure]
  rw [hstep]
  rfl

/-- C1 witness for the amended claim: a lone orphan NoteOff aborts the
assembly with KeyError. -/
theorem noteOff_without_open_record_keyError_witness :
    tableLookup TrackAccum.init.trackState.noteOnTable (0, 60) = none ∧
    List.foldlM (trackEventStep ⟨500, 0, [[]]⟩ 0) TrackAccum.init
        [Event.NoteOffEvent 0 0 60 0]
      = .error (.keyError 0 60) :=
  ⟨by decide,
    noteOff_without_open_record_keyError ⟨500, 0, [[]]⟩ 0 TrackAccum.init 0 0 60 0 [] []
      (by decide) (by decide)⟩

/-- C8: after the deltaTime VLQ the parser reads one candidate status byte.
With its high bit set, every successfully parsed event installs it as the
new running status; with the high bit clear the cursor is rewound — the
candidate byte is re-consumed as the first data byte — and the previous
running status is reused, so a raw (note, velocity) pair following a
NoteOn with no new status byte decodes as another NoteOn on the same
channel. -/
theorem parseEvent_running_status (mm mm2 : List Nat) (st : MidiParseState)
    (deltaTime cand : Nat)
    (hvlq : unpackVLQ mm 0 = some (deltaTime, cand :: mm2)) :
    (cand &&& 0x80 ≠ 0 → ∀ e st' rest,
        parseEvent mm st = some (e, st', rest) → st'.runningStatus = cand) ∧
    (cand &&& 0x80 = 0 → st.runningStatus ≠ 0xFF →
        ¬(st.runningStatus = 0xF0 ∨ st.runningStatus = 0xF7) →
        0x80 ≤ st.runningStatus →
        parseEvent mm st
          = (parseChannelEvent deltaTime st.runningStatus (cand :: mm2)).map
              (fun er => (er.1, st, er.2))) ∧
    (parseEvents [0, 0x90, 60, 100, 0, 64, 100, 0, 0xFF, 0x2F, 0]).map Prod.fst
      = some [.NoteOnEvent 0 0 60 100, .NoteOnEvent 0 0 64 100, .EndOfTrackEvent 0] := by
  refine ⟨?_, ?_, by decide⟩
  · intro hbit e st' rest hparse
    simp only [parseEvent, hvlq, if_pos hbit] at hparse
    split at hparse
    · obtain ⟨⟨e1, r1⟩, -, h2⟩ := Option.map_eq_some'.mp hparse
      cases h2
      rfl
    · split at hparse
      · obtain ⟨⟨e1, r1⟩, -, h2⟩ := Option.map_eq_some'.mp hparse
        cases h2
        rfl
      · split at hparse
        · obtain ⟨⟨e1, r1⟩, -, h2⟩ := Option.map_eq_some'.mp hparse
          cases h2
          rfl
        · exact Option.noConfusion hparse
  · intro hbit hFF hSys hChan
    have hbit' : ¬(cand &&& 0x80 ≠ 0) := fun hc => hc hbit
    simp only [parseEvent, hvlq, if_neg hbit', if_neg hFF, if_neg hSys, if_pos hChan]

/-- C8 witness: the concrete running-status track decodes the raw
(64, 100) pair as a second NoteOn on channel 0. -/
theorem parseEvent_running_status_witness :
    unpackVLQ [0, 144, 60, 100] 0 = some (0, 144 :: [60, 100]) ∧
    (parseEvents [0, 0x90, 60, 100, 0, 64, 100, 0, 0xFF, 0x2F, 0]).map Prod.fst
      = some [.NoteOnEvent 0 0 60 100, .NoteOnEvent 0 0 64 100, .EndOfTrackEvent 0] :=
  ⟨by decide,
    (parseEvent_running_status [0, 144, 60, 100] [60, 100] {} 0 144 (by decide)).2.2⟩

/-- The reverse search of `findTempoRecord` selects exactly the latest (in
list order) record with tick position at most the queried tick. -/
theorem findTempoRecord_eq_latestRecordSpec (tempoEvents : List TempoEventRecord)
    (timeInTicks : Nat) :
    findTempoRecord tempoEvents timeInTicks = latestRecordSpec tempoEvents timeInTicks := by
  unfold findTempoRecord latestRecordSpec
  rw [List.filter_getLast?]

/-- C6: `timeInTicksToSeconds` computes
`anchor.secondsPosition + (tick - anchor.tickPosition) * (anchor.tempo / ppqn) / 1e6`
where the anchor is the latest record with tick position ≤ the queried
tick (the implicit default `(0, 0, 500000)` when none exists); with no
tempo records every query yields `ticks * 500000 / ppqn / 1e6`; and for a
format-1 tempo map the requested track index is ignored in favour of
track 0.  (The function is pure, so identical arguments trivially give
identical results.) -/
theorem timeInTicksToSeconds_anchor_formula (ppqn t trackIndex : Nat)
    (tempoEvents : List TempoEventRecord) (tm : TempoMap) (h1 : tm.midiFormat = 1) :
    tempoListToSeconds ppqn tempoEvents t = ticksToSecondsSpec ppqn tempoEvents t ∧
    tempoListToSeconds ppqn [] t = (t : ℚ) * 500000 / (ppqn : ℚ) / 1000000 ∧
    timeInTicksToSeconds tm trackIndex t = timeInTicksToSeconds tm 0 t := by
  refine ⟨?_, ?_, ?_⟩
  · unfold tempoListToSeconds ticksToSecondsSpec
    rw [findTempoRecord_eq_latestRecordSpec]
    ring
  · unfold tempoListToSeconds findTempoRecord defaultTempoRecord
    simp only [List.reverse_nil, List.find?_nil, Option.getD_none]
    push_cast
    ring
  · unfold timeInTicksToSeconds
    rw [h1]
    simp

/-- C6 witness: a concrete format-1 tempo map with two tempo tracks and a
non-trivial record list. -/
theorem timeInTicksToSeconds_anchor_formula_witness :
    (⟨2, 1, [[⟨1, 3, 7⟩], [⟨0, 0, 9⟩]]⟩ : TempoMap).midiFormat = 1 ∧
    (tempoListToSeconds 2 [⟨1, 3, 7⟩] 5 = ticksToSecondsSpec 2 [⟨1, 3, 7⟩] 5 ∧
     tempoListToSeconds 2 [] 5 = (5 : ℚ) * 500000 / (2 : ℚ) / 1000000 ∧
     timeInTicksToSeconds ⟨2, 1, [[⟨1, 3, 7⟩], [⟨0, 0, 9⟩]]⟩ 1 5
       = timeInTicksToSeconds ⟨2, 1, [[⟨1, 3, 7⟩], [⟨0, 0, 9⟩]]⟩ 0 5) :=
  ⟨rfl, timeInTicksToSeconds_anchor_formula 2 5 1 [⟨1, 3, 7⟩] ⟨2, 1, [[⟨1, 3, 7⟩], [⟨0, 0, 9⟩]]⟩ rfl⟩

/-- C5: two consecutive NoteOns for the same (channel, note) key followed
by two NoteOffs for that key emit exactly one Note, spanning from the
first NoteOn's time to the second NoteOff's time with the first NoteOn's
velocity; after only the first NoteOff the stack count is decremented and
no note has been emitted. -/
theorem stacked_noteOn_pairs_single_note (ppqn ch n v1 v2 w1 w2 d1 d2 d3 d4 : Nat)
    (tl : List TempoEventRecord) :
    (processTrackEvents ⟨ppqn, 0, [tl]⟩ 0
        [.NoteOnEvent d1 ch n v1, .NoteOnEvent d2 ch n v2,
         .NoteOffEvent d3 ch n w1, .NoteOffEvent d4 ch n w2]).map TrackAccum.notes
      = .ok [⟨ch, n, tempoListToSeconds ppqn tl d1,
              tempoListToSeconds ppqn tl (d1 + d2 + d3 + d4), (v1 : ℚ) / 127⟩] ∧
    (processTrackEvents ⟨ppqn, 0, [tl]⟩ 0
        [.NoteOnEvent d1 ch n v1, .NoteOnEvent d2 ch n v2,
         .NoteOffEvent d3 ch n w1]).map TrackAccum.notes
      = .ok [] := by
  constructor <;>
    simp [processTrackEvents, trackEventStep, updateTime, timeInTicksToSeconds,
      recordNoteOn, getCorrespondingNoteOnRecord, tableLookup, tableAdjust, tableErase,
      TrackAccum.init, TrackState.init, Event.deltaTime, List.foldlM, bind, Except.bind,
      pure, Except.pure, Except.map, Nat.add_assoc]

/-- Evaluating the anchor search on a list extended by one record: the new
record is checked first (it is the head of the reversed list). -/
theorem tempoListToSeconds_append (ppqn : Nat) (l : List TempoEventRecord)
    (r : TempoEventRecord) (t : Nat) :
    tempoListToSeconds ppqn (l ++ [r]) t
      = if r.timeInTicks ≤ t
          then r.timeInSeconds
            + ((t : ℚ) - (r.timeInTicks : ℚ)) * (((r.tempo : ℚ) / (ppqn : ℚ)) / 1000000)
          else tempoListToSeconds ppqn l t := by
  unfold tempoListToSeconds findTempoRecord
  rw [List.reverse_append]
  by_cases hr : r.timeInTicks ≤ t
  · rw [if_pos hr]
    rw [show ([r].reverse ++ l.reverse).find? (fun e => e.timeInTicks ≤ t)
        = some r from by simp [List.find?_cons, hr]]
    rfl
  · rw [if_neg hr]
    rw [show ([r].reverse ++ l.reverse).find? (fun e => e.timeInTicks ≤ t)
        = l.reverse.find? (fun e => e.timeInTicks ≤ t) from by simp [List.find?_cons, hr]]

/-- On a well-formed tempo record list, `tempoListToSeconds` is monotone in
the queried tick position. -/
theorem tempoListToSeconds_mono {ppqn : Nat} {l : List TempoEventRecord}
    (hwf : TempoWF ppqn l) :
    ∀ {t1 t2 : Nat}, t1 ≤ t2 →
      tempoListToSeconds ppqn l t1 ≤ tempoListToSeconds ppqn l t2 := by
  induction hwf with
  | nil =>
    intro t1 t2 h12
    unfold tempoListToSeconds findTempoRecord defaultTempoRecord
    simp only [List.reverse_nil, List.find?_nil, Option.getD_none]
    have hc : (0 : ℚ) ≤ ((500000 : ℚ) / (ppqn : ℚ)) / 1000000 := by positivity
    have ht : ((t1 : ℚ) - 0) ≤ ((t2 : ℚ) - 0) := by
      have : (t1 : ℚ) ≤ (t2 : ℚ) := by exact_mod_cast h12
      linarith
    have := mul_le_mul_of_nonneg_right ht hc
    simpa using this
  | snoc l t tempo hwf ih =>
    intro t1 t2 h12
    rw [tempoListToSeconds_append, tempoListToSeconds_append]
    have hc : (0 : ℚ) ≤ ((tempo : ℚ) / (ppqn : ℚ)) / 1000000 := by positivity
    by_cases h1 : t ≤ t1
    · rw [if_pos h1, if_pos (le_trans h1 h12)]
      have ht : ((t1 : ℚ) - (t : ℚ)) ≤ ((t2 : ℚ) - (t : ℚ)) := by
        have : (t1 : ℚ) ≤ (t2 : ℚ) := by exact_mod_cast h12
        linarith
      have := mul_le_mul_of_nonneg_right ht hc
      exact add_le_add_left this _
    · rw [if_neg h1]
      by_cases h2 : t ≤ t2
      · rw [if_pos h2]
        have h1t : t1 ≤ t := by omega
        have hstep : tempoListToSeconds ppqn l t1 ≤ tempoListToSeconds ppqn l t := ih h1t
        have hpos : (0 : ℚ) ≤ ((t2 : ℚ) - (t : ℚ)) * (((tempo : ℚ) / (ppqn : ℚ)) / 1000000) := by
          apply mul_nonneg _ hc
          have : (t : ℚ) ≤ (t2 : ℚ) := by exact_mod_cast h2
          linarith
        calc tempoListToSeconds ppqn l t1 ≤ tempoListToSeconds ppqn l t := hstep
          _ ≤ tempoListToSeconds ppqn l t
              + ((t2 : ℚ) - (t : ℚ)) * (((tempo : ℚ) / (ppqn : ℚ)) / 1000000) := by
            linarith
      · rw [if_neg h2]
        exact ih h12

/-- A successful `tempoTrackStep` preserves the number of tempo track
lists. -/
theorem tempoTrackStep_ok_length {ppqn fmt i : Nat}
    {acc acc' : List (List TempoEventRecord) × Nat × ℚ} {e : Event}
    (h : tempoTrackStep ppqn fmt i acc e = .ok acc') :
    acc'.1.length = acc.1.length := by
  obtain ⟨tts, ticks, sec⟩ := acc
  unfold tempoTrackStep at h
  obtain ⟨s, -, hrest⟩ := except_bind_ok h
  cases e <;> simp only [pure, Except.pure, Except.ok.injEq] at hrest <;> subst hrest <;>
    simp [List.length_set]

/-- A successful `tempoTrackStep` preserves well-formedness of every tempo
record list, provided a format-1 walk only ever uses track index 0. -/
theorem tempoTrackStep_ok_wf {ppqn fmt i : Nat}
    {acc acc' : List (List TempoEventRecord) × Nat × ℚ} {e : Event}
    (hfmt : fmt = 1 → i = 0)
    (hwf : ∀ l ∈ acc.1, TempoWF ppqn l)
    (h : tempoTrackStep ppqn fmt i acc e = .ok acc') :
    ∀ l ∈ acc'.1, TempoWF ppqn l := by
  obtain ⟨tts, ticks, sec⟩ := acc
  unfold tempoTrackStep at h
  obtain ⟨s, hs, hrest⟩ := except_bind_ok h
  have hidx : (if fmt ≠ 1 then i else 0) = i := by
    by_cases hf : fmt = 1
    · simp [hf, hfmt hf]
    · simp [hf]
  simp only [timeInTicksToSeconds, hidx] at hs
  cases hget : tts.get? i with
  | none => rw [hget] at hs; exact absurd hs (by simp)
  | some l0 =>
    rw [hget] at hs
    have hseq : s = tempoListToSeconds ppqn l0 (ticks + e.deltaTime) :=
      (Except.ok.inj hs).symm
    subst hseq
    cases e <;> simp only [pure, Except.pure, Except.ok.injEq] at hrest <;> subst hrest <;>
      try exact hwf
    case TempoEvent d tempo =>
      intro l hl
      rcases List.mem_or_eq_of_mem_set hl with hmem | heq
      · exact hwf l hmem
      · subst heq
        have hgetD : tts.getD i [] = l0 := by
          rw [List.getD_eq_getElem?_getD, ← List.get?_eq_getElem?, hget]
          rfl
        rw [hgetD]
        exact TempoWF.snoc l0 _ _ (hwf l0 (List.get?_mem hget))

/-- Length preservation through the event fold of `computeTempoTracks`. -/
theorem foldlM_tempoTrackStep_ok_length {ppqn fmt i : Nat} :
    ∀ (events : List Event) {acc trip},
      List.foldlM (tempoTrackStep ppqn fmt i) acc events = .ok trip →
      trip.1.length = acc.1.length := by
  intro events
  induction events with
  | nil =>
    intro acc trip h
    have : acc = trip := Except.ok.inj h
    rw [this]
  | cons e es ih =>
    intro acc trip h
    rw [List.foldlM_cons] at h
    obtain ⟨a1, h1, h2⟩ := except_bind_ok h
    exact (ih h2).trans (tempoTrackStep_ok_length h1)

/-- Well-formedness preservation through the event fold of
`computeTempoTracks`. -/
theorem foldlM_tempoTrackStep_ok_wf {ppqn fmt i : Nat} (hfmt : fmt = 1 → i = 0) :
    ∀ (events : List Event) {acc trip},
      (∀ l ∈ acc.1, TempoWF ppqn l) →
      List.foldlM (tempoTrackStep ppqn fmt i) acc events = .ok trip →
      ∀ l ∈ trip.1, TempoWF ppqn l := by
  intro events
  induction events with
  | nil =>
    intro acc trip hwf h
    have : acc = trip := Except.ok.inj h
    rw [← this]
    exact hwf
  | cons e es ih =>
    intro acc trip hwf h
    rw [List.foldlM_cons] at h
    obtain ⟨a1, h1, h2⟩ := except_bind_ok h
    exact ih (tempoTrackStep_ok_wf hfmt hwf h1) h2

/-- A successful `processTempoTrack` preserves the number of tempo track
lists. -/
theorem processTempoTrack_ok_length {ppqn fmt i : Nat} {events : List Event}
    {tts tts' : List (List TempoEventRecord)}
    (h : processTempoTrack ppqn fmt i events tts = .ok tts') :
    tts'.length = tts.length := by
  unfold processTempoTrack at h
  cases hget : tts.get? i with
  | none => rw [hget] at h; exact absurd h (by simp)
  | some l0 =>
    rw [hget] at h
    obtain ⟨trip, h1, h2⟩ := except_bind_ok h
    obtain ⟨tts1, t1, s1⟩ := trip
    have : tts1 = tts' := Except.ok.inj h2
    rw [← this]
    exact foldlM_tempoTrackStep_ok_length events h1

/-- A successful `processTempoTrack` preserves well-formedness. -/
theorem processTempoTrack_ok_wf {ppqn fmt i : Nat} {events : List Event}
    {tts tts' : List (List TempoEventRecord)}
    (hfmt : fmt = 1 → i = 0)
    (hwf : ∀ l ∈ tts, TempoWF ppqn l)
    (h : processTempoTrack ppqn fmt i events tts = .ok tts') :
    ∀ l ∈ tts', TempoWF ppqn l := by
  unfold processTempoTrack at h
  cases hget : tts.get? i with
  | none => rw [hget] at h; exact absurd h (by simp)
  | some l0 =>
    rw [hget] at h
    obtain ⟨trip, h1, h2⟩ := except_bind_ok h
    obtain ⟨tts1, t1, s1⟩ := trip
    have : tts1 = tts' := Except.ok.inj h2
    rw [← this]
    exact foldlM_tempoTrackStep_ok_wf hfmt events hwf h1

/-- Well-formedness through the track loop of `computeTempoTracks`: the
format-1 walk processes at most one track, from index 0. -/
theorem tempoTracksLoop_ok_wf {ppqn fmt : Nat} :
    ∀ (tracks : List MidiTrack) (i : Nat) {tts tts' : List (List TempoEventRecord)},
      (fmt = 1 → i = 0 ∧ tracks.length ≤ 1) →
      (∀ l ∈ tts, TempoWF ppqn l) →
      tempoTracksLoop ppqn fmt i tracks tts = .ok tts' →
      ∀ l ∈ tts', TempoWF ppqn l := by
  intro tracks
  induction tracks with
  | nil =>
    intro i tts tts' hfmt hwf h
    have : tts = tts' := Except.ok.inj h
    rw [← this]
    exact hwf
  | cons tr rest ih =>
    intro i tts tts' hfmt hwf h
    unfold tempoTracksLoop at h
    obtain ⟨tts1, h1, h2⟩ := except_bind_ok h
    have hwf1 : ∀ l ∈ tts1, TempoWF ppqn l :=
      processTempoTrack_ok_wf (fun hf => (hfmt hf).1) hwf h1
    by_cases hf : fmt = 1
    · have hrest : rest = [] := by
        have := (hfmt hf).2
        simp only [List.length_cons] at this
        exact List.eq_nil_of_length_eq_zero (by omega)
      subst hrest
      have : tts1 = tts' := Except.ok.inj h2
      rw [← this]
      exact hwf1
    · exact ih (i + 1) (fun hf1 => absurd hf1 hf) hwf1 h2

/-- Every tempo record list of a successfully built tempo map is
well-formed, and the map carries the file's ppqn. -/
theorem tempoMapBuild_ok_wf {midiFile : MidiFile} {tm : TempoMap}
    (h : TempoMap.build midiFile = .ok tm) :
    tm.ppqn = midiFile.ppqn ∧ ∀ l ∈ tm.tempoTracks, TempoWF midiFile.ppqn l := by
  unfold TempoMap.build at h
  obtain ⟨tts, h1, h2⟩ := except_bind_ok h
  have htm : (⟨midiFile.ppqn, midiFile.midiFormat, tts⟩ : TempoMap) = tm := Except.ok.inj h2
  rw [← htm]
  refine ⟨rfl, ?_⟩
  refine tempoTracksLoop_ok_wf _ 0 ?_ ?_ h1
  · intro hf
    refine ⟨rfl, ?_⟩
    simp [hf, List.length_take]
  · intro l hl
    simp only [List.mem_singleton] at hl
    subst hl
    exact TempoWF.nil

/-- A successful `tableLookup` returns an entry of the table. -/
theorem tableLookup_mem : ∀ {table : NoteTable} {key : Nat × Nat} {r : NoteOnRecord},
    tableLookup table key = some r → (key, r) ∈ table := by
  intro table
  induction table with
  | nil => intro key r h; exact Option.noConfusion h
  | cons entry rest ih =>
    intro key r h
    obtain ⟨k, v⟩ := entry
    unfold tableLookup at h
    by_cases hk : k = key
    · rw [if_pos hk] at h
      have hv := Option.some.inj h
      rw [hk, hv]
      exact List.mem_cons_self _ _
    · rw [if_neg hk] at h
      exact List.mem_cons_of_mem _ (ih h)

/-- The table invariant survives raising the current tick bound. -/
theorem tableWF_weaken {ppqn : Nat} {tl : List TempoEventRecord} {c c' : Nat}
    {table : NoteTable} (hcc : c ≤ c') (h : TableWF ppqn tl c table) :
    TableWF ppqn tl c' table :=
  fun entry he => ⟨le_trans (h entry he).1 hcc, (h entry he).2⟩

/-- The table invariant survives a value update that keeps the tick and
seconds positions (only the stack count changes). -/
theorem tableWF_adjust {ppqn : Nat} {tl : List TempoEventRecord} {c : Nat}
    {table : NoteTable} {key : Nat × Nat} {f : NoteOnRecord → NoteOnRecord}
    (hf : ∀ r, (f r).ticks = r.ticks ∧ (f r).time = r.time)
    (h : TableWF ppqn tl c table) :
    TableWF ppqn tl c (tableAdjust table key f) := by
  intro entry he
  unfold tableAdjust at he
  obtain ⟨pre, hpre, heq⟩ := List.mem_map.mp he
  by_cases hk : pre.1 = key
  · rw [if_pos hk] at heq
    rw [← heq]
    exact ⟨(hf pre.2).1.symm ▸ (h pre hpre).1, by rw [(hf pre.2).1, (hf pre.2).2]; exact (h pre hpre).2⟩
  · rw [if_neg hk] at heq
    rw [← heq]
    exact h pre hpre

/-- The table invariant survives deleting an entry. -/
theorem tableWF_erase {ppqn : Nat} {tl : List TempoEventRecord} {c : Nat}
    {table : NoteTable} {key : Nat × Nat}
    (h : TableWF ppqn tl c table) :
    TableWF ppqn tl c (tableErase table key) := by
  intro entry he
  exact h entry (List.mem_of_mem_filter he)

/-- `recordNoteOn` keeps the current tick position. -/
theorem recordNoteOn_timeInTicks (st : TrackState) (channel note velocity : Nat) :
    (recordNoteOn st channel note velocity).timeInTicks = st.timeInTicks := by
  dsimp only [recordNoteOn]
  cases tableLookup st.noteOnTable (channel, note) <;> rfl

/-- `recordNoteOn` preserves the table invariant: an existing record only
has its stack count bumped, and a fresh record is opened at the current
tick/seconds position. -/
theorem recordNoteOn_wf {ppqn : Nat} {tl : List TempoEventRecord} {st : TrackState}
    {channel note velocity : Nat}
    (hsec : st.timeInSeconds = tempoListToSeconds ppqn tl st.timeInTicks)
    (htab : TableWF ppqn tl st.timeInTicks st.noteOnTable) :
    TableWF ppqn tl st.timeInTicks (recordNoteOn st channel note velocity).noteOnTable := by
  dsimp only [recordNoteOn]
  cases tableLookup st.noteOnTable (channel, note) with
  | some r =>
    dsimp only
    exact tableWF_adjust (fun r => ⟨rfl, rfl⟩) htab
  | none =>
    dsimp only
    intro entry he
    rcases List.mem_append.mp he with hold | hnew
    · exact htab entry hold
    · simp only [List.mem_singleton] at hnew
      subst hnew
      exact ⟨le_refl _, hsec⟩

/-- Inversion of a successful `getCorrespondingNoteOnRecord`: the tick and
seconds positions are unchanged, the table invariant is preserved, and a
returned record was an entry of the table. -/
theorem getCorrespondingNoteOnRecord_ok {st : TrackState} {channel note : Nat}
    {optRec : Option NoteOnRecord} {ts2 : TrackState}
    (h : getCorrespondingNoteOnRecord st channel note = .ok (optRec, ts2)) :
    ts2.timeInTicks = st.timeInTicks ∧ ts2.timeInSeconds = st.timeInSeconds ∧
    (∀ ppqn tl c, TableWF ppqn tl c st.noteOnTable → TableWF ppqn tl c ts2.noteOnTable) ∧
    (∀ r, optRec = some r → ((channel, note), r) ∈ st.noteOnTable) := by
  simp only [getCorrespondingNoteOnRecord] at h
  cases hlook : tableLookup st.noteOnTable (channel, note) with
  | none => rw [hlook] at h; exact absurd h (by simp)
  | some r =>
    rw [hlook] at h
    dsimp only at h
    by_cases hc : r.numberOfNotes = 1
    · rw [if_pos hc] at h
      have hpair := Except.ok.inj h
      obtain ⟨hopt, hst⟩ := Prod.mk.inj hpair
      subst hst
      subst hopt
      refine ⟨rfl, rfl, fun ppqn tl c hw => tableWF_erase hw, ?_⟩
      intro r' hr'
      rw [← Option.some.inj hr']
      exact tableLookup_mem hlook
    · rw [if_neg hc] at h
      have hpair := Except.ok.inj h
      obtain ⟨hopt, hst⟩ := Prod.mk.inj hpair
      subst hst
      subst hopt
      refine ⟨rfl, rfl, ?_, ?_⟩
      · intro ppqn tl c hw
        dsimp only
        refine tableWF_adjust ?_ hw
        exact fun r => ⟨rfl, rfl⟩
      · intro r' hr'
        exact Option.noConfusion hr'

/-- One note-assembler step preserves the loop invariant: the open-note
table stays consistent with the tempo map, and every emitted note spans
forward in time. -/
theorem trackEventStep_ok_wf {tm : TempoMap} {trackIndex : Nat}
    {tl : List TempoEventRecord} {acc acc' : TrackAccum} {e : Event}
    (hget : tm.tempoTracks.get? (if tm.midiFormat ≠ 1 then trackIndex else 0) = some tl)
    (hwf : TempoWF tm.ppqn tl)
    (hacc : AccumWF tm.ppqn tl acc)
    (h : trackEventStep tm trackIndex acc e = .ok acc') :
    AccumWF tm.ppqn tl acc' := by
  unfold trackEventStep at h
  obtain ⟨ts, hts, hrest⟩ := except_bind_ok h
  have hts' : ts = ⟨acc.trackState.timeInTicks + e.deltaTime,
      tempoListToSeconds tm.ppqn tl (acc.trackState.timeInTicks + e.deltaTime),
      acc.trackState.noteOnTable⟩ := by
    unfold updateTime at hts
    obtain ⟨s, hs, hp⟩ := except_bind_ok hts
    simp only [timeInTicksToSeconds] at hs
    rw [hget] at hs
    have hseq : tempoListToSeconds tm.ppqn tl (acc.trackState.timeInTicks + e.deltaTime)
        = s := Except.ok.inj hs
    have hback := Except.ok.inj hp
    rw [← hback, ← hseq]
  have hticks : ts.timeInTicks = acc.trackState.timeInTicks + e.deltaTime := by rw [hts']
  have hsec : ts.timeInSeconds = tempoListToSeconds tm.ppqn tl ts.timeInTicks := by
    rw [hts']
  have htabts : TableWF tm.ppqn tl ts.timeInTicks ts.noteOnTable := by
    rw [hts']
    exact tableWF_weaken (Nat.le_add_right _ _) hacc.1
  cases e
  case NoteOnEvent d channel note velocity =>
    simp only [pure, Except.pure, Except.ok.injEq] at hrest
    subst hrest
    refine ⟨?_, hacc.2⟩
    show TableWF tm.ppqn tl (recordNoteOn ts channel note velocity).timeInTicks
      (recordNoteOn ts channel note velocity).noteOnTable
    rw [recordNoteOn_timeInTicks]
    exact recordNoteOn_wf hsec htabts
  case NoteOffEvent d channel note velocity =>
    obtain ⟨pair, hgc, hp⟩ := except_bind_ok hrest
    obtain ⟨optRec, ts2⟩ := pair
    obtain ⟨h2ticks, h2sec, h2tab, h2mem⟩ := getCorrespondingNoteOnRecord_ok hgc
    cases optRec with
    | none =>
      simp only [pure, Except.pure, Except.ok.injEq] at hp
      subst hp
      refine ⟨?_, hacc.2⟩
      show TableWF tm.ppqn tl ts2.timeInTicks ts2.noteOnTable
      rw [h2ticks]
      exact h2tab _ _ _ htabts
    | some r =>
      simp only [pure, Except.pure, Except.ok.injEq] at hp
      subst hp
      have hrwf := htabts _ (h2mem r rfl)
      constructor
      · show TableWF tm.ppqn tl ts2.timeInTicks ts2.noteOnTable
        rw [h2ticks]
        exact h2tab _ _ _ htabts
      · intro nt hnt
        rcases List.mem_append.mp hnt with hold | hnew
        · exact hacc.2 nt hold
        · simp only [List.mem_singleton] at hnew
          subst hnew
          show r.time ≤ ts2.timeInSeconds
          rw [h2sec, hsec, hrwf.2]
          exact tempoListToSeconds_mono hwf hrwf.1
  case TrackNameEvent d name =>
    simp only [pure, Except.pure, Except.ok.injEq] at hrest
    subst hrest
    exact ⟨htabts, hacc.2⟩
  all_goals
    simp only [pure, Except.pure, Except.ok.injEq] at hrest
  all_goals subst hrest
  all_goals exact ⟨htabts, hacc.2⟩

/-- The assembler invariant is preserved through the whole event fold. -/
theorem foldlM_trackEventStep_ok_wf {tm : TempoMap} {trackIndex : Nat}
    {tl : List TempoEventRecord}
    (hget : tm.tempoTracks.get? (if tm.midiFormat ≠ 1 then trackIndex else 0) = some tl)
    (hwf : TempoWF tm.ppqn tl) :
    ∀ (events : List Event) {acc accF : TrackAccum},
      AccumWF tm.ppqn tl acc →
      List.foldlM (trackEventStep tm trackIndex) acc events = .ok accF →
      AccumWF tm.ppqn tl accF := by
  intro events
  induction events with
  | nil =>
    intro acc accF hacc h
    have : acc = accF := Except.ok.inj h
    rw [← this]
    exact hacc
  | cons e es ih =>
    intro acc accF hacc h
    rw [List.foldlM_cons] at h
    obtain ⟨a1, h1, h2⟩ := except_bind_ok h
    exact ih (trackEventStep_ok_wf hget hwf hacc h1) h2

/-- Every note assembled for one track spans forward in time, whenever the
tempo map's record lists are well-formed. -/
theorem processTrackEvents_ok_noteswf {tm : TempoMap} {trackIndex : Nat}
    {events : List Event} {acc : TrackAccum}
    (hwfAll : ∀ l ∈ tm.tempoTracks, TempoWF tm.ppqn l)
    (h : processTrackEvents tm trackIndex events = .ok acc) :
    NotesWF acc.notes := by
  unfold processTrackEvents at h
  cases hget : tm.tempoTracks.get? (if tm.midiFormat ≠ 1 then trackIndex else 0) with
  | none =>
    cases events with
    | nil =>
      have : TrackAccum.init = acc := Except.ok.inj h
      rw [← this]
      intro note hn
      exact absurd hn (List.not_mem_nil note)
    | cons e es =>
      exfalso
      rw [List.foldlM_cons] at h
      obtain ⟨a1, h1, -⟩ := except_bind_ok h
      unfold trackEventStep at h1
      obtain ⟨ts, hts, -⟩ := except_bind_ok h1
      unfold updateTime at hts
      obtain ⟨s, hs, -⟩ := except_bind_ok hts
      simp only [timeInTicksToSeconds] at hs
      rw [hget] at hs
      exact Except.noConfusion hs
  | some tl =>
    have hwf : TempoWF tm.ppqn tl := hwfAll tl (List.get?_mem hget)
    have hinit : AccumWF tm.ppqn tl TrackAccum.init := by
      constructor
      · intro entry he
        exact absurd he (List.not_mem_nil entry)
      · intro note hn
        exact absurd hn (List.not_mem_nil note)
    exact (foldlM_trackEventStep_ok_wf hget hwf events hinit h).2

/-- Every track kept by the working-tracks loop carries only
forward-spanning notes. -/
theorem workingTracksLoop_ok_noteswf {tm : TempoMap}
    (hwfAll : ∀ l ∈ tm.tempoTracks, TempoWF tm.ppqn l) :
    ∀ (tracks : List MidiTrack) (trackIndex trackIndexUsed : Nat)
      {wts0 wtsF : List MIDITrack},
      (∀ tr ∈ wts0, NotesWF tr.notes) →
      workingTracksLoop tm trackIndex trackIndexUsed tracks wts0 = .ok wtsF →
      ∀ tr ∈ wtsF, NotesWF tr.notes := by
  intro tracks
  induction tracks with
  | nil =>
    intro i j wts0 wtsF hwts h
    have : wts0 = wtsF := Except.ok.inj h
    rw [← this]
    exact hwts
  | cons track rest ih =>
    intro i j wts0 wtsF hwts h
    unfold workingTracksLoop at h
    obtain ⟨acc, hp, hrest⟩ := except_bind_ok h
    have hnotes : NotesWF acc.notes := processTrackEvents_ok_noteswf hwfAll hp
    split at hrest
    · refine ih (i + 1) (j + 1) ?_ hrest
      intro tr htr
      rcases List.mem_append.mp htr with hold | hnew
      · exact hwts tr hold
      · simp only [List.mem_singleton] at hnew
        subst hnew
        exact hnotes
    · exact ih (i + 1) j hwts hrest

/-- The per-channel filter of the format-0 explosion only keeps notes of
the source track. -/
theorem explodeChannel_noteswf {sourceNotes : List MIDINote}
    (h : NotesWF sourceNotes) (channel : Nat) :
    NotesWF (explodeChannel sourceNotes channel).1 := by
  unfold explodeChannel
  suffices hgen : ∀ (src : List MIDINote), (∀ n ∈ src, n.timeOn ≤ n.timeOff) →
      ∀ (acc : List MIDINote × List Nat × Nat × Nat), NotesWF acc.1 →
      NotesWF (src.foldl (fun (acc : List MIDINote × List Nat × Nat × Nat) note =>
        if note.channel = channel then
          (acc.1 ++ [note],
           (if note.noteNumber ∈ acc.2.1 then acc.2.1 else acc.2.1 ++ [note.noteNumber]),
           min acc.2.2.1 note.noteNumber, max acc.2.2.2 note.noteNumber)
        else acc) acc).1 by
    refine hgen sourceNotes h ([], [], 1000, 0) ?_
    intro note hn
    exact absurd hn (List.not_mem_nil note)
  intro src
  induction src with
  | nil => intro _ acc hacc; exact hacc
  | cons n ns ih =>
    intro hsrc acc hacc
    rw [List.foldl_cons]
    refine ih (fun m hm => hsrc m (List.mem_cons_of_mem _ hm)) _ ?_
    by_cases hch : n.channel = channel
    · rw [if_pos hch]
      intro note hnote
      rcases List.mem_append.mp hnote with hold | hnew
      · exact hacc note hold
      · simp only [List.mem_singleton] at hnew
        subst hnew
        exact hsrc note (List.mem_cons_self _ _)
    · rw [if_neg hch]
      exact hacc

/-- Every synthetic per-channel track of the format-0 explosion carries
only forward-spanning notes. -/
theorem explodeLoop_noteswf {firstTrack : MIDITrack}
    (h : NotesWF firstTrack.notes) :
    ∀ (channels : List Nat) (trackIndexUsed : Nat),
      ∀ tr ∈ explodeLoop firstTrack trackIndexUsed channels, NotesWF tr.notes := by
  intro channels
  induction channels with
  | nil => intro j tr htr; exact absurd htr (List.not_mem_nil tr)
  | cons c cs ih =>
    intro j tr htr
    unfold explodeLoop at htr
    rcases hec : explodeChannel firstTrack.notes c with ⟨notes, notesUsed, minNote, maxNote⟩
    rw [hec] at htr
    dsimp only at htr
    by_cases hne : notesUsed ≠ []
    · rw [if_pos hne] at htr
      rcases List.mem_cons.mp htr with hnew | hold
      · subst hnew
        have hch := explodeChannel_noteswf h c
        rw [hec] at hch
        exact hch
      · exact ih _ tr hold
    · rw [if_neg hne] at htr
      exact ih _ tr htr

/-- Notes survive the final stage of `readMIDIFile` (the optional
format-0 channel explosion) with their forward span intact. -/
theorem finalStage_notes_forward {tm : TempoMap} {mf2 : MidiFile}
    {fts : List MidiTrack} {res : MidiFile × TempoMap × List MIDITrack}
    (cond : Prop) [inst : Decidable cond]
    (hwfAll : ∀ l ∈ tm.tempoTracks, TempoWF tm.ppqn l)
    (h : (workingTracksLoop tm 0 0 fts [] >>= fun workingTracks =>
      if cond then
        match workingTracks with
        | [] => Except.error PyError.indexError
        | firstTrack :: _rest => pure (mf2, tm, explodeLoop firstTrack 0 (List.range 16))
      else pure (mf2, tm, workingTracks)) = .ok res) :
    ∀ tr ∈ res.2.2, ∀ note ∈ tr.notes, note.timeOn ≤ note.timeOff := by
  obtain ⟨wts, hloop, h3⟩ := except_bind_ok h
  have hwts : ∀ tr ∈ wts, NotesWF tr.notes := by
    refine workingTracksLoop_ok_noteswf hwfAll fts 0 0 ?_ hloop
    intro tr htr
    exact absurd htr (List.not_mem_nil tr)
  split at h3
  · cases hw : wts with
    | nil =>
      rw [hw] at h3
      exact absurd h3 (by simp)
    | cons w0 wrest =>
      rw [hw] at h3
      simp only [pure, Except.pure, Except.ok.injEq] at h3
      rw [← h3]
      intro tr htr note hn
      have hw0 : NotesWF w0.notes := hwts w0 (by rw [hw]; exact List.mem_cons_self _ _)
      exact explodeLoop_noteswf hw0 (List.range 16) 0 tr htr note hn
  · simp only [pure, Except.pure, Except.ok.injEq] at h3
    rw [← h3]
    intro tr htr note hn
    exact hwts tr htr note hn

/-- C9: every Note of every track returned by a successful `readMIDIFile`
satisfies timeOff ≥ timeOn — the per-track seconds position derived via
`timeInTicksToSeconds` never decreases as the (non-negative) deltaTimes
accumulate, so zero-length or longer notes are emitted, never reversed
ones. -/
theorem readMIDIFile_notes_forward {midiFile : MidiFile}
    {res : MidiFile × TempoMap × List MIDITrack}
    (h : readMIDIFile midiFile = .ok res) :
    ∀ tr ∈ res.2.2, ∀ note ∈ tr.notes, note.timeOn ≤ note.timeOff := by
  unfold readMIDIFile at h
  obtain ⟨tm, hbuild, h1⟩ := except_bind_ok h
  obtain ⟨hppqn, hwfAll⟩ := tempoMapBuild_ok_wf hbuild
  rw [← hppqn] at hwfAll
  dsimp only [bind, Except.bind, pure, Except.pure] at h1
  split at h1
  · split at h1
    · exact absurd h1 (by simp)
    · exact finalStage_notes_forward _ hwfAll h1
  · exact finalStage_notes_forward _ hwfAll h1

/-- C9 witness: the example file decodes to one track with one note, and
that note spans forward. -/
theorem readMIDIFile_notes_forward_witness :
    readMIDIFile exampleMidiFile
      = .ok ({ exampleMidiFile with tempo := 500000 },
          ⟨500, 1, [[⟨0, 0, 500000⟩]]⟩, [exampleTrack]) ∧
    exampleNote.timeOn ≤ exampleNote.timeOff := by
  have hok : readMIDIFile exampleMidiFile
      = .ok ({ exampleMidiFile with tempo := 500000 },
          ⟨500, 1, [[⟨0, 0, 500000⟩]]⟩, [exampleTrack]) := by
    with_unfolding_all rfl
  refine ⟨hok, ?_⟩
  exact readMIDIFile_notes_forward hok exampleTrack (by simp) exampleNote
    (by simp [exampleTrack])

/-- A `tempoTrackStep` on track index 0 of the degenerate `[[]]` tempo
track state leaves the state's track lists unchanged when the event is not
a tempo event. -/
theorem foldlM_tempoTrackStep_no_tempo {ppqn fmt : Nat} :
    ∀ (events : List Event), (∀ e ∈ events, ∀ d τ, e ≠ Event.TempoEvent d τ) →
      ∀ (ticks : Nat) (sec : ℚ),
        ∃ ticks' sec',
          List.foldlM (tempoTrackStep ppqn fmt 0) ([[]], ticks, sec) events
            = .ok ([[]], ticks', sec') := by
  intro events
  induction events with
  | nil => intro _ ticks sec; exact ⟨ticks, sec, rfl⟩
  | cons e es ih =>
    intro hno ticks sec
    rw [List.foldlM_cons]
    have hstep : tempoTrackStep ppqn fmt 0 ([[]], ticks, sec) e
        = .ok ([[]], ticks + e.deltaTime,
            tempoListToSeconds ppqn [] (ticks + e.deltaTime)) := by
      unfold tempoTrackStep
      simp only [timeInTicksToSeconds, ite_self]
      cases e
      case TempoEvent d τ => exact absurd rfl (hno _ (List.mem_cons_self _ _) d τ)
      all_goals rfl
    rw [hstep]
    obtain ⟨t', s', hrec⟩ :=
      ih (fun e' he' => hno e' (List.mem_cons_of_mem _ he')) (ticks + e.deltaTime)
        (tempoListToSeconds ppqn [] (ticks + e.deltaTime))
    exact ⟨t', s', hrec⟩

/-- Walking a track with no tempo events leaves the degenerate `[[]]`
tempo track state unchanged. -/
theorem processTempoTrack_no_tempo {ppqn fmt : Nat} {events : List Event}
    (hno : ∀ e ∈ events, ∀ d τ, e ≠ Event.TempoEvent d τ) :
    processTempoTrack ppqn fmt 0 events [[]] = .ok [[]] := by
  unfold processTempoTrack
  simp only [List.get?_cons_zero]
  obtain ⟨t', s', h⟩ := foldlM_tempoTrackStep_no_tempo events hno 0 0
  rw [h]
  rfl

/-- With two or more tracks to walk, `computeTempoTracks` fails: the
degenerate `[[]]` state has no list at index 1. -/
theorem tempoTracksLoop_two_error {ppqn fmt : Nat} (t1 t2 : MidiTrack)
    (rest : List MidiTrack) :
    ∃ err, tempoTracksLoop ppqn fmt 0 (t1 :: t2 :: rest) [[]] = .error err := by
  cases hp : processTempoTrack ppqn fmt 0 t1.events [[]] with
  | error e =>
    refine ⟨e, ?_⟩
    unfold tempoTracksLoop
    rw [hp]
    rfl
  | ok tts1 =>
    have hlen : tts1.length = 1 := by
      have := processTempoTrack_ok_length hp
      simpa using this
    have hidx : tts1.get? 1 = none := List.get?_eq_none.mpr (by omega)
    refine ⟨.indexError, ?_⟩
    unfold tempoTracksLoop
    rw [hp]
    show tempoTracksLoop ppqn fmt 1 (t2 :: rest) tts1 = .error .indexError
    unfold tempoTracksLoop
    unfold processTempoTrack
    rw [hidx]
    rfl

/-- C10: a MidiFile whose tempo-bearing tracks (track 0 for format 1,
every track otherwise) contain no Tempo meta event decodes to the
degenerate tempo-track state `[[]]`, and `readMIDIFile` then fails with
IndexError while taking the first record of the empty list to set the
overall tempo — even though `timeInTicksToSeconds` itself would have
served every query from the implicit 500000 µs/quarter default. -/
theorem readMIDIFile_no_tempo_indexError {midiFile : MidiFile} {tm : TempoMap}
    (hbuild : TempoMap.build midiFile = .ok tm)
    (hno : ∀ track ∈ (if midiFile.midiFormat = 1
        then midiFile.tracks.take 1 else midiFile.tracks),
      ∀ e ∈ track.events, ∀ d τ, e ≠ Event.TempoEvent d τ) :
    readMIDIFile midiFile = .error .indexError := by
  have hbuild' := hbuild
  unfold TempoMap.build at hbuild'
  obtain ⟨tts, hloop, hpure⟩ := except_bind_ok hbuild'
  have htm : (⟨midiFile.ppqn, midiFile.midiFormat, tts⟩ : TempoMap) = tm :=
    Except.ok.inj hpure
  have htts : tts = [[]] := by
    rcases hsel : (if midiFile.midiFormat = 1
        then midiFile.tracks.take 1 else midiFile.tracks) with - | ⟨t, rest⟩
    · rw [hsel] at hloop
      exact (Except.ok.inj hloop).symm
    · rcases rest with - | ⟨t2, rest2⟩
      · rw [hsel] at hloop
        unfold tempoTracksLoop at hloop
        have hno' := hno
        rw [hsel] at hno'
        have hpt : processTempoTrack midiFile.ppqn midiFile.midiFormat 0 t.events [[]]
            = .ok [[]] :=
          processTempoTrack_no_tempo (hno' t (List.mem_cons_self _ _))
        rw [hpt] at hloop
        exact (Except.ok.inj hloop).symm
      · exfalso
        rw [hsel] at hloop
        obtain ⟨err, herr⟩ := tempoTracksLoop_two_error t t2 rest2
        rw [herr] at hloop
        exact Except.noConfusion hloop
  subst htts
  unfold readMIDIFile
  rw [hbuild, ← htm]
  rfl

/-- C10 witness: a one-track format-1 file with no tempo events builds a
tempo map but makes `readMIDIFile` raise IndexError. -/
theorem readMIDIFile_no_tempo_indexError_witness :
    TempoMap.build ⟨1, 500, -1, [⟨[Event.EndOfTrackEvent 0]⟩]⟩
      = .ok ⟨500, 1, [[]]⟩ ∧
    readMIDIFile ⟨1, 500, -1, [⟨[Event.EndOfTrackEvent 0]⟩]⟩
      = .error .indexError :=
  ⟨by with_unfolding_all rfl,
    readMIDIFile_no_tempo_indexError (by with_unfolding_all rfl)
      (by
        intro track htrack e he d τ
        simp at htrack
        subst htrack
        simp at he
        subst he
        simp)⟩

end M2B
